import Mathlib

/-!
Verification of the Real-Time Memory Allocation Tracker core.

The development shallowly embeds the two allocator implementations of the
repository and the two schedulers of `main.cpp`:

* `MemoryBlock`, `FFA`, `allocate`, `deallocate` — the `std::list`-based
  `FirstFitAllocator` defined in `main.cpp`.  `std::list` nodes have stable
  identity, so a returned `MemoryBlock*` is modelled as the `id` field of a
  block record; fresh nodes receive fresh ids.
* `HBlock`, `FirstFitAllocatorH`, `allocateH` — the `std::vector`-based
  `FirstFitAllocator` of `FirstFitAllocator.h` with its 16-unit
  fragmentation-avoidance threshold.  The handle is the vector index the
  C++ code takes the returned pointer from.
* `rrStep`, `rrRun` — `RRScheduler::processTasks` of `main.cpp` (the loop is
  given explicit fuel; a lemma shows that enough fuel drains the queue).
* `sjfRun`, `sjfProcessTasks` — `SJFScheduler::processTasks` of `main.cpp`.
  `std::sort` gives no guarantee beyond sortedness with respect to the
  comparator, so the sort is modelled relationally by `IsStdSortOutcome`.

All machine integers of the C++ code are modelled as `Int` (no arithmetic in
the program approaches the `int` overflow range in the scenarios considered).
-/

/-- A memory block of `main.cpp` (`struct MemoryBlock`): start address, size
and free flag.  The extra `id` field models the identity of the `std::list`
node holding the block, which is what a returned `MemoryBlock*` denotes. -/
structure MemoryBlock where
  id : Nat
  start : Int
  size : Int
  free : Bool
deriving DecidableEq, Repr

/-- State of the `main.cpp` `FirstFitAllocator` (which inherits the block
list and total size from `MemoryAllocator`).  `nextId` is the supply of
fresh node identities. -/
structure FFA where
  blocks : List MemoryBlock
  totalSize : Int
  nextId : Nat
deriving DecidableEq, Repr

/-- The `MemoryAllocator(int total)` constructor of `main.cpp`: the whole
memory is one free block.  No validation of `total` is performed. -/
def mkFFA (total : Int) : FFA :=
  { blocks := [⟨0, 0, total, true⟩], totalSize := total, nextId := 1 }

/-- The scan loop of `FirstFitAllocator::allocate` in `main.cpp`: find the
first block with `free && size >= sz`, mark it allocated with exactly the
requested size, and insert a remainder block after it when
`remaining = size - sz > 0`.  Returns the handle (node id) and new list. -/
def allocGo (nid : Nat) (sz : Int) : List MemoryBlock → Option (Nat × List MemoryBlock)
  | [] => none
  | b :: rest =>
    if b.free = true ∧ sz ≤ b.size then
      if 0 < b.size - sz then
        some (b.id, { b with free := false, size := sz } ::
          ⟨nid, b.start + sz, b.size - sz, true⟩ :: rest)
      else
        some (b.id, { b with free := false, size := sz } :: rest)
    else
      match allocGo nid sz rest with
      | none => none
      | some (h, rest') => some (h, b :: rest')

/-- `FirstFitAllocator::allocate` of `main.cpp`.  On failure the state is
returned unchanged and no handle is produced (`nullptr`). -/
def allocate (a : FFA) (sz : Int) : Option Nat × FFA :=
  match allocGo a.nextId sz a.blocks with
  | none => (none, a)
  | some (h, bl) => (some h, { a with blocks := bl, nextId := a.nextId + 1 })

/-- The merge-with-next step at the end of `FirstFitAllocator::deallocate`
in `main.cpp`: `x` is the node the iterator rests on after the optional
previous-merge; if the following block is free it is absorbed into `x`. -/
def mergeNext (x : MemoryBlock) : List MemoryBlock → List MemoryBlock
  | [] => [x]
  | n :: ns => if n.free = true then { x with size := x.size + n.size } :: ns else x :: n :: ns

/-- The scan loop of `FirstFitAllocator::deallocate` in `main.cpp`: find the
node the pointer refers to, set it free, absorb it into a free predecessor
and absorb a free successor.  The head position of the original call has no
predecessor; every later position is inspected together with its
predecessor before the scan moves on. -/
def deallocFind (h : Nat) : List MemoryBlock → List MemoryBlock
  | [] => []
  | b :: rest =>
    if b.id = h then mergeNext { b with free := true } rest
    else
      match rest with
      | [] => [b]
      | c :: rest2 =>
        if c.id = h then
          if b.free = true then mergeNext { b with size := b.size + c.size } rest2
          else b :: mergeNext { c with free := true } rest2
        else b :: deallocFind h rest

/-- `FirstFitAllocator::deallocate` of `main.cpp`.  A null pointer matches
no list node, so the scan leaves the state unchanged. -/
def deallocate (a : FFA) (h : Option Nat) : FFA :=
  match h with
  | none => a
  | some hid => { a with blocks := deallocFind hid a.blocks }

/-- The node ids of a block list. -/
def idList (l : List MemoryBlock) : List Nat :=
  l.map (·.id)

/-- The block list partitions the address range from `s` to `e`: the first
block starts at `s`, every block has positive size and is followed by a
block starting where it ends, and the final block ends at `e`. -/
def chainB (s e : Int) : List MemoryBlock → Bool
  | [] => decide (s = e)
  | b :: rest => decide (b.start = s) && decide (0 < b.size) && chainB (s + b.size) e rest

/-- Whether the head block of a list is free (`false` for the empty list). -/
def headFreeB : List MemoryBlock → Bool
  | [] => false
  | b :: _ => b.free

/-- No two address-adjacent blocks are both free. -/
def noAdjB : List MemoryBlock → Bool
  | [] => true
  | b :: rest => !(b.free && headFreeB rest) && noAdjB rest

/-- The block list is strictly sorted by start address. -/
def sortedByStartB : List MemoryBlock → Bool
  | [] => true
  | [_] => true
  | b :: c :: rest => decide (b.start < c.start) && sortedByStartB (c :: rest)

/-- Sum of the block sizes. -/
def sumSizes (l : List MemoryBlock) : Int :=
  (l.map (·.size)).sum

/-- Arena states reachable from `mkFFA total` by `allocate` calls with
positive request sizes (the interface domain of `allocate`) and arbitrary
`deallocate` calls. -/
inductive Reach (total : Int) : FFA → Prop
  | init : Reach total (mkFFA total)
  | alloc {a : FFA} {sz : Int} : Reach total a → 0 < sz → Reach total (allocate a sz).2
  | dealloc {a : FFA} (h : Option Nat) : Reach total a → Reach total (deallocate a h)

/-- The allocator invariant: the blocks partition the address space, no two
adjacent blocks are both free, node ids are pairwise distinct and below the
fresh-id supply, and the recorded total size is `total`. -/
def ArenaInv (total : Int) (a : FFA) : Prop :=
  a.totalSize = total ∧
  chainB 0 total a.blocks = true ∧
  noAdjB a.blocks = true ∧
  (idList a.blocks).Nodup ∧
  (∀ b ∈ a.blocks, b.id < a.nextId)

/-- A memory block of `FirstFitAllocator.h` (`struct MemoryBlock` there has
no extra fields): start address, size and free flag. -/
structure HBlock where
  start : Int
  size : Int
  free : Bool
deriving DecidableEq, Repr

/-- State of the `std::vector`-based `FirstFitAllocator` of
`FirstFitAllocator.h`. -/
structure FirstFitAllocatorH where
  totalMemory : Int
  blocks : List HBlock
deriving DecidableEq, Repr

/-- The `FirstFitAllocator(int memorySize)` constructor of
`FirstFitAllocator.h`: a single free block, no validation. -/
def mkFFAH (memorySize : Int) : FirstFitAllocatorH :=
  { totalMemory := memorySize, blocks := [⟨0, memorySize, true⟩] }

/-- The scan loop of `FirstFitAllocator::allocate` in `FirstFitAllocator.h`:
first block (in vector order, index `i` counting from the scan start) with
`free && size >= sz`.  If `size <= sz + 16` the whole block is allocated;
otherwise the block is shrunk to `sz`, marked allocated, and the remainder
is appended at the end of the vector (`push_back`). -/
def allocGoH (sz : Int) : List HBlock → Nat → Option (Nat × List HBlock)
  | [], _ => none
  | b :: rest, i =>
    if b.free = true ∧ sz ≤ b.size then
      if b.size ≤ sz + 16 then
        some (i, { b with free := false } :: rest)
      else
        some (i, { b with size := sz, free := false } ::
          (rest ++ [⟨b.start + sz, b.size - sz, true⟩]))
    else
      match allocGoH sz rest (i + 1) with
      | none => none
      | some (h, rest') => some (h, b :: rest')

/-- `FirstFitAllocator::allocate` of `FirstFitAllocator.h`.  The handle is
the vector index whose address the C++ code returns. -/
def allocateH (a : FirstFitAllocatorH) (sz : Int) : Option Nat × FirstFitAllocatorH :=
  match allocGoH sz a.blocks 0 with
  | none => (none, a)
  | some (h, bl) => (some h, { a with blocks := bl })

/-- A task of `main.cpp` (`struct RealTimeTask`). -/
structure RealTimeTask where
  id : Int
  memoryRequired : Int
  executionTime : Int
  priority : Int
deriving DecidableEq, Repr

/-- The `RealTimeTask` constructor: fields are stored verbatim, with no
validation of `memoryRequired`. -/
def mkRealTimeTask (i mem execTime prio : Int) : RealTimeTask :=
  { id := i, memoryRequired := mem, executionTime := execTime, priority := prio }

/-- Observable event of one round-robin loop iteration: the task either ran
for a slice of the given length or failed to allocate memory. -/
inductive RREvent where
  | served : Int → Int → RREvent
  | failed : Int → RREvent
deriving DecidableEq, Repr

/-- The task id an event concerns. -/
def RREvent.taskId : RREvent → Int
  | served i _ => i
  | failed i => i

/-- One iteration of the `while` loop of `RRScheduler::processTasks` in
`main.cpp`, applied to the popped front task: allocate, run for
`min(executionTime, quantum)` logical time units, decrement the remaining
time, decide re-queueing (`executionTime > 0`), deallocate.  On allocation
failure the task is dropped. -/
def rrStep (quantum : Int) (task : RealTimeTask) (alloc : FFA) :
    RREvent × Option RealTimeTask × FFA :=
  match allocate alloc task.memoryRequired with
  | (some h, a1) =>
    let execTime := min task.executionTime quantum
    let task' := { task with executionTime := task.executionTime - execTime }
    (RREvent.served task.id execTime,
     if 0 < task'.executionTime then some task' else none,
     deallocate a1 (some h))
  | (none, a1) => (RREvent.failed task.id, none, a1)

/-- The `while (!tasks.empty())` loop of `RRScheduler::processTasks`, with
explicit fuel bounding the number of iterations.  Returns the event log,
the remaining queue (empty whenever the fuel suffices) and the final
allocator state. -/
def rrRun (quantum : Int) : Nat → List RealTimeTask → FFA →
    List RREvent × List RealTimeTask × FFA
  | 0, q, a => ([], q, a)
  | _ + 1, [], a => ([], [], a)
  | fuel + 1, t :: rest, a =>
    let s := rrStep quantum t a
    let q' := rest ++ (match s.2.1 with | some t' => [t'] | none => [])
    let r := rrRun quantum fuel q' s.2.2
    (s.1 :: r.1, r.2)

/-- Termination measure of the round-robin loop: queue length plus total
remaining (nonnegative part of) execution time. -/
def rrMeasure (q : List RealTimeTask) : Nat :=
  q.length + (q.map (fun t => t.executionTime.toNat)).sum

/-- Observable event of one SJF iteration: the task either ran to
completion or failed to allocate memory. -/
inductive SJEvent where
  | done : Int → SJEvent
  | failed : Int → SJEvent
deriving DecidableEq, Repr

/-- The task id an SJF event concerns. -/
def SJEvent.taskId : SJEvent → Int
  | done i => i
  | failed i => i

/-- The `for` loop of `SJFScheduler::processTasks` in `main.cpp`, run over
the already-sorted task vector: allocate, run the whole burst, deallocate;
on failure skip the task. -/
def sjfRun : List RealTimeTask → FFA → List SJEvent × FFA
  | [], a => ([], a)
  | t :: rest, a =>
    match allocate a t.memoryRequired with
    | (some h, a1) =>
      let r := sjfRun rest (deallocate a1 (some h))
      (SJEvent.done t.id :: r.1, r.2)
    | (none, a1) =>
      let r := sjfRun rest a1
      (SJEvent.failed t.id :: r.1, r.2)

/-- State of `SJFScheduler`: the task vector (tasks are never removed). -/
structure SJFSched where
  tasks : List RealTimeTask
deriving DecidableEq, Repr

/-- `std::sort(tasks.begin(), tasks.end(), cmp)` with
`cmp a b = a.executionTime < b.executionTime` guarantees only that the
result is a permutation of the input that is sorted with respect to the
comparator; it is not a stable sort, so the order of elements with equal
`executionTime` is unspecified.  `l'` is a possible outcome of sorting
`l`. -/
def IsStdSortOutcome (l l' : List RealTimeTask) : Prop :=
  l'.Perm l ∧ List.Pairwise (fun x y => x.executionTime ≤ y.executionTime) l'

/-- `SJFScheduler::processTasks` of `main.cpp`, parameterised by the sort
outcome `l'` (constrained by `IsStdSortOutcome` in the theorems): the
vector is sorted in place and then each task is processed once; the vector
is not cleared afterwards. -/
def sjfProcessTasks (_s : SJFSched) (l' : List RealTimeTask) (a : FFA) :
    List SJEvent × FFA × SJFSched :=
  ((sjfRun l' a).1, (sjfRun l' a).2, ⟨l'⟩)

example : (allocate (mkFFA 1000) 900).2.blocks =
    [⟨0, 0, 900, false⟩, ⟨1, 900, 100, true⟩] := by decide

example : (allocate (allocate (mkFFA 1000) 900).2 150).1 = none := by decide

example : (deallocate (allocate (mkFFA 1000) 900).2 (some 0)).blocks =
    [⟨0, 0, 1000, true⟩] := by decide

example : (allocateH (mkFFAH 1000) 900).2.blocks =
    [⟨0, 900, false⟩, ⟨900, 100, true⟩] := by decide

example : (allocateH (mkFFAH 910) 900).2.blocks = [⟨0, 910, false⟩] := by decide

example :
    (rrRun 150 8 [mkRealTimeTask 1 200 300 1, mkRealTimeTask 2 250 400 1] (mkFFA 1000)).1 =
      [RREvent.served 1 150, RREvent.served 2 150, RREvent.served 1 150,
       RREvent.served 2 150, RREvent.served 2 100] := by decide

example :
    (rrRun 150 8 [mkRealTimeTask 1 200 300 1, mkRealTimeTask 2 250 400 1] (mkFFA 1000)).2.2.blocks =
      [⟨0, 0, 1000, true⟩] := by decide

example :
    (sjfRun [mkRealTimeTask 4 100 200 2, mkRealTimeTask 3 150 500 2] (mkFFA 1000)).1 =
      [SJEvent.done 4, SJEvent.done 3] := by decide

/-! ### Lemmas about the allocate scan of the `main.cpp` allocator -/

/-- The scan fails exactly when no block is free and large enough. -/
lemma allocGo_none_iff (nid : Nat) (sz : Int) (l : List MemoryBlock) :
    allocGo nid sz l = none ↔ ∀ b ∈ l, ¬(b.free = true ∧ sz ≤ b.size) := by
  induction l with
  | nil => simp [allocGo]
  | cons b rest ih =>
    simp only [allocGo]
    by_cases hc : b.free = true ∧ sz ≤ b.size
    · rw [if_pos hc]
      constructor
      · intro h
        by_cases hs : 0 < b.size - sz
        · rw [if_pos hs] at h; cases h
        · rw [if_neg hs] at h; cases h
      · intro h
        exact absurd hc (h b (by simp))
    · rw [if_neg hc]
      cases hrec : allocGo nid sz rest with
      | none =>
        simp only [hrec]
        constructor
        · intro _ x hx
          rcases List.mem_cons.mp hx with rfl | hx'
          · exact hc
          · exact (ih.mp hrec) x hx'
        · intro _; trivial
      | some p =>
        obtain ⟨h0, rest'⟩ := p
        simp only [hrec]
        constructor
        · intro habs; cases habs
        · intro hall
          have hnone := ih.mpr (fun x hx => hall x (List.mem_cons_of_mem _ hx))
          rw [hnone] at hrec; cases hrec

/-- A successful scan selects the first free block that is large enough,
returns its id, and either splits it (remainder positive) or allocates it
whole (exact fit). -/
lemma allocGo_some_decomp (nid : Nat) (sz : Int) (l : List MemoryBlock)
    (h : Nat) (l' : List MemoryBlock) (hs : allocGo nid sz l = some (h, l')) :
    ∃ pre b suf, l = pre ++ b :: suf ∧
      (∀ p ∈ pre, ¬(p.free = true ∧ sz ≤ p.size)) ∧
      b.free = true ∧ sz ≤ b.size ∧ h = b.id ∧
      ((0 < b.size - sz ∧
          l' = pre ++ { b with free := false, size := sz } ::
            ⟨nid, b.start + sz, b.size - sz, true⟩ :: suf) ∨
       (b.size = sz ∧
          l' = pre ++ { b with free := false, size := sz } :: suf)) := by
  induction l generalizing l' with
  | nil => cases hs
  | cons b rest ih =>
    simp only [allocGo] at hs
    by_cases hc : b.free = true ∧ sz ≤ b.size
    · rw [if_pos hc] at hs
      by_cases hrem : 0 < b.size - sz
      · rw [if_pos hrem] at hs
        obtain ⟨rfl, rfl⟩ : h = b.id ∧
            l' = { b with free := false, size := sz } ::
              ⟨nid, b.start + sz, b.size - sz, true⟩ :: rest := by
          cases hs; exact ⟨rfl, rfl⟩
        exact ⟨[], b, rest, rfl, by simp, hc.1, hc.2, rfl, Or.inl ⟨hrem, rfl⟩⟩
      · rw [if_neg hrem] at hs
        obtain ⟨rfl, rfl⟩ : h = b.id ∧
            l' = { b with free := false, size := sz } :: rest := by
          cases hs; exact ⟨rfl, rfl⟩
        have hsz : b.size = sz := le_antisymm (by omega) hc.2
        exact ⟨[], b, rest, rfl, by simp, hc.1, hc.2, rfl, Or.inr ⟨hsz, rfl⟩⟩
    · rw [if_neg hc] at hs
      cases hrec : allocGo nid sz rest with
      | none => rw [hrec] at hs; cases hs
      | some p =>
        obtain ⟨h0, rest'⟩ := p
        rw [hrec] at hs
        obtain ⟨rfl, rfl⟩ : h = h0 ∧ l' = b :: rest' := by cases hs; exact ⟨rfl, rfl⟩
        obtain ⟨pre, c, suf, hsplit, hpre, hcf, hcs, hid, hor⟩ := ih rest' hrec
        refine ⟨b :: pre, c, suf, by rw [hsplit]; simp, ?_, hcf, hcs, hid, ?_⟩
        · intro p hp
          rcases List.mem_cons.mp hp with rfl | hp'
          · exact hc
          · exact hpre p hp'
        · rcases hor with ⟨hrem, rfl⟩ | ⟨hsz, rfl⟩
          · exact Or.inl ⟨hrem, rfl⟩
          · exact Or.inr ⟨hsz, rfl⟩

/-- A successful scan preserves the partition chain when the request is
positive. -/
lemma allocGo_chainB (nid : Nat) (sz : Int) (hsz : 0 < sz) :
    ∀ (l : List MemoryBlock) (s e : Int) (h : Nat) (l' : List MemoryBlock),
      chainB s e l = true → allocGo nid sz l = some (h, l') → chainB s e l' = true := by
  intro l
  induction l with
  | nil => intro s e h l' _ hs; cases hs
  | cons b rest ih =>
    intro s e h l' hch hs
    simp only [chainB, Bool.and_eq_true, decide_eq_true_eq] at hch
    obtain ⟨⟨hst, hpos⟩, hch'⟩ := hch
    simp only [allocGo] at hs
    by_cases hc : b.free = true ∧ sz ≤ b.size
    · rw [if_pos hc] at hs
      by_cases hrem : 0 < b.size - sz
      · rw [if_pos hrem] at hs
        obtain ⟨rfl, rfl⟩ : h = b.id ∧
            l' = { b with free := false, size := sz } ::
              ⟨nid, b.start + sz, b.size - sz, true⟩ :: rest := by
          cases hs; exact ⟨rfl, rfl⟩
        simp only [chainB, Bool.and_eq_true, decide_eq_true_eq]
        refine ⟨⟨hst, hsz⟩, ⟨⟨by omega, hrem⟩, ?_⟩⟩
        have : s + sz + (b.size - sz) = s + b.size := by omega
        rw [this]
        exact hch'
      · rw [if_neg hrem] at hs
        obtain ⟨rfl, rfl⟩ : h = b.id ∧
            l' = { b with free := false, size := sz } :: rest := by
          cases hs; exact ⟨rfl, rfl⟩
        have hsize : b.size = sz := le_antisymm (by omega) hc.2
        simp only [chainB, Bool.and_eq_true, decide_eq_true_eq]
        refine ⟨⟨hst, hsz⟩, ?_⟩
        rw [show s + sz = s + b.size by omega]
        exact hch'
    · rw [if_neg hc] at hs
      cases hrec : allocGo nid sz rest with
      | none => rw [hrec] at hs; cases hs
      | some p =>
        obtain ⟨h0, rest'⟩ := p
        rw [hrec] at hs
        obtain ⟨rfl, rfl⟩ : h = h0 ∧ l' = b :: rest' := by cases hs; exact ⟨rfl, rfl⟩
        simp only [chainB, Bool.and_eq_true, decide_eq_true_eq]
        exact ⟨⟨hst, hpos⟩, ih _ _ _ _ hch' hrec⟩

/-- A successful scan preserves the no-adjacent-free invariant, and it never
makes the head of the list free if it was not. -/
lemma allocGo_noAdj (nid : Nat) (sz : Int) :
    ∀ (l : List MemoryBlock) (h : Nat) (l' : List MemoryBlock),
      noAdjB l = true → allocGo nid sz l = some (h, l') →
      noAdjB l' = true ∧ (headFreeB l' = true → headFreeB l = true) := by
  intro l
  induction l with
  | nil => intro h l' _ hs; cases hs
  | cons b rest ih =>
    intro h l' hna hs
    simp only [noAdjB, Bool.and_eq_true, Bool.not_eq_true'] at hna
    obtain ⟨hhd, hna'⟩ := hna
    simp only [allocGo] at hs
    by_cases hc : b.free = true ∧ sz ≤ b.size
    · rw [if_pos hc] at hs
      have hrestHd : headFreeB rest = false := by
        rcases Bool.and_eq_false_iff.mp hhd with h1 | h2
        · rw [hc.1] at h1; cases h1
        · exact h2
      by_cases hrem : 0 < b.size - sz
      · rw [if_pos hrem] at hs
        obtain ⟨rfl, rfl⟩ : h = b.id ∧
            l' = { b with free := false, size := sz } ::
              ⟨nid, b.start + sz, b.size - sz, true⟩ :: rest := by
          cases hs; exact ⟨rfl, rfl⟩
        refine ⟨?_, by intro hh; cases hh⟩
        simp [noAdjB, headFreeB, hna']
        exact hrestHd
      · rw [if_neg hrem] at hs
        obtain ⟨rfl, rfl⟩ : h = b.id ∧
            l' = { b with free := false, size := sz } :: rest := by
          cases hs; exact ⟨rfl, rfl⟩
        refine ⟨?_, by intro hh; cases hh⟩
        simp [noAdjB, headFreeB, hna']
    · rw [if_neg hc] at hs
      cases hrec : allocGo nid sz rest with
      | none => rw [hrec] at hs; cases hs
      | some p =>
        obtain ⟨h0, rest'⟩ := p
        rw [hrec] at hs
        obtain ⟨rfl, rfl⟩ : h = h0 ∧ l' = b :: rest' := by cases hs; exact ⟨rfl, rfl⟩
        obtain ⟨hna2, hhd2⟩ := ih _ _ hna' hrec
        have hfalse : (b.free && headFreeB rest') = false := by
          rcases Bool.and_eq_false_iff.mp hhd with h1 | h2
          · simp [h1]
          · cases hrf : headFreeB rest' with
            | false => simp
            | true => rw [hhd2 hrf] at h2; cases h2
        refine ⟨?_, by intro hh; exact hh⟩
        simp only [noAdjB, Bool.and_eq_true, Bool.not_eq_true']
        exact ⟨hfalse, hna2⟩

/-- Ids after a successful scan: every id is either the fresh id or an old
one, and distinctness is preserved when the fresh id is really fresh. -/
lemma allocGo_ids (nid : Nat) (sz : Int) :
    ∀ (l : List MemoryBlock) (h : Nat) (l' : List MemoryBlock),
      allocGo nid sz l = some (h, l') →
      (∀ i ∈ idList l', i = nid ∨ i ∈ idList l) ∧
      ((idList l).Nodup → nid ∉ idList l → (idList l').Nodup) := by
  intro l
  induction l with
  | nil => intro h l' hs; cases hs
  | cons b rest ih =>
    intro h l' hs
    simp only [allocGo] at hs
    by_cases hc : b.free = true ∧ sz ≤ b.size
    · rw [if_pos hc] at hs
      by_cases hrem : 0 < b.size - sz
      · rw [if_pos hrem] at hs
        obtain ⟨rfl, rfl⟩ : h = b.id ∧
            l' = { b with free := false, size := sz } ::
              ⟨nid, b.start + sz, b.size - sz, true⟩ :: rest := by
          cases hs; exact ⟨rfl, rfl⟩
        constructor
        · intro i hi
          simp only [idList, List.map_cons, List.mem_cons] at hi ⊢
          rcases hi with rfl | rfl | hi
          · exact Or.inr (Or.inl rfl)
          · exact Or.inl rfl
          · exact Or.inr (Or.inr hi)
        · intro hnd hfresh
          simp only [idList, List.map_cons, List.nodup_cons, List.mem_cons] at hnd hfresh ⊢
          push_neg at hfresh
          refine ⟨?_, ?_, hnd.2⟩
          · rintro (rfl | hmem)
            · exact hfresh.1 rfl
            · exact hnd.1 hmem
          · exact hfresh.2
      · rw [if_neg hrem] at hs
        obtain ⟨rfl, rfl⟩ : h = b.id ∧
            l' = { b with free := false, size := sz } :: rest := by
          cases hs; exact ⟨rfl, rfl⟩
        constructor
        · intro i hi
          simp only [idList, List.map_cons, List.mem_cons] at hi ⊢
          rcases hi with rfl | hi
          · exact Or.inr (Or.inl rfl)
          · exact Or.inr (Or.inr hi)
        · intro hnd _
          simpa [idList] using hnd
    · rw [if_neg hc] at hs
      cases hrec : allocGo nid sz rest with
      | none => rw [hrec] at hs; cases hs
      | some p =>
        obtain ⟨h0, rest'⟩ := p
        rw [hrec] at hs
        obtain ⟨rfl, rfl⟩ : h = h0 ∧ l' = b :: rest' := by cases hs; exact ⟨rfl, rfl⟩
        obtain ⟨hsub, hnd'⟩ := ih _ _ hrec
        constructor
        · intro i hi
          simp only [idList, List.map_cons, List.mem_cons] at hi ⊢
          rcases hi with rfl | hi
          · exact Or.inr (Or.inl rfl)
          · rcases hsub i hi with rfl | hold
            · exact Or.inl rfl
            · exact Or.inr (Or.inr (by simpa [idList] using hold))
        · intro hnd hfresh
          simp only [idList, List.map_cons, List.nodup_cons, List.mem_cons] at hnd hfresh ⊢
          push_neg at hfresh
          refine ⟨?_, hnd' hnd.2 (by simpa [idList] using hfresh.2)⟩
          intro hmem
          rcases hsub b.id hmem with rfl | hold
          · exact hfresh.1 rfl
          · exact hnd.1 (by simpa [idList] using hold)

/-- A successful scan keeps every allocated (non-free) block untouched in
the list. -/
lemma allocGo_mem_preserved (nid : Nat) (sz : Int) :
    ∀ (l : List MemoryBlock) (b : MemoryBlock) (h : Nat) (l' : List MemoryBlock),
      b ∈ l → b.free = false → allocGo nid sz l = some (h, l') → b ∈ l' := by
  intro l
  induction l with
  | nil => intro b h l' hb _ _; cases hb
  | cons x rest ih =>
    intro b h l' hb hf hs
    simp only [allocGo] at hs
    by_cases hc : x.free = true ∧ sz ≤ x.size
    · rw [if_pos hc] at hs
      have hbx : b ≠ x := by
        intro heq; rw [heq, hc.1] at hf; cases hf
      have hbrest : b ∈ rest := by
        rcases List.mem_cons.mp hb with rfl | hr
        · exact absurd rfl hbx
        · exact hr
      by_cases hrem : 0 < x.size - sz
      · rw [if_pos hrem] at hs
        obtain ⟨rfl, rfl⟩ : h = x.id ∧
            l' = { x with free := false, size := sz } ::
              ⟨nid, x.start + sz, x.size - sz, true⟩ :: rest := by
          cases hs; exact ⟨rfl, rfl⟩
        exact List.mem_cons_of_mem _ (List.mem_cons_of_mem _ hbrest)
      · rw [if_neg hrem] at hs
        obtain ⟨rfl, rfl⟩ : h = x.id ∧
            l' = { x with free := false, size := sz } :: rest := by
          cases hs; exact ⟨rfl, rfl⟩
        exact List.mem_cons_of_mem _ hbrest
    · rw [if_neg hc] at hs
      cases hrec : allocGo nid sz rest with
      | none => rw [hrec] at hs; cases hs
      | some p =>
        obtain ⟨h0, rest'⟩ := p
        rw [hrec] at hs
        obtain ⟨rfl, rfl⟩ : h = h0 ∧ l' = x :: rest' := by cases hs; exact ⟨rfl, rfl⟩
        rcases List.mem_cons.mp hb with rfl | hr
        · exact List.mem_cons_self _ _
        · exact List.mem_cons_of_mem _ (ih _ _ _ hr hf hrec)

/-! ### Lemmas about the deallocate scan of the `main.cpp` allocator -/

/-- Whether the head block of a list has the given id. -/
def headIdB (h : Nat) : List MemoryBlock → Bool
  | [] => false
  | b :: _ => decide (b.id = h)

/-- Setting the free flag of an already-free block changes nothing. -/
lemma MemoryBlock.set_free_self (b : MemoryBlock) (hb : b.free = true) :
    { b with free := true } = b := by
  obtain ⟨i, s, z, f⟩ := b
  simp only at hb
  rw [hb]

/-- Merging with a non-free (or absent) successor changes nothing. -/
lemma mergeNext_not_free (x : MemoryBlock) (rest : List MemoryBlock)
    (hhd : headFreeB rest = false) : mergeNext x rest = x :: rest := by
  cases rest with
  | nil => rfl
  | cons n ns =>
    simp only [headFreeB] at hhd
    simp only [mergeNext]
    rw [if_neg (by rw [hhd]; exact Bool.false_ne_true)]

/-- The merge-with-next step preserves the partition chain. -/
lemma mergeNext_chainB (x : MemoryBlock) (rest : List MemoryBlock) (s e : Int)
    (hch : chainB s e (x :: rest) = true) : chainB s e (mergeNext x rest) = true := by
  cases rest with
  | nil => exact hch
  | cons n ns =>
    simp only [chainB, Bool.and_eq_true, decide_eq_true_eq] at hch
    obtain ⟨⟨hxs, hxp⟩, ⟨hns, hnp⟩, hch'⟩ := hch
    simp only [mergeNext]
    by_cases hnf : n.free = true
    · rw [if_pos hnf]
      simp only [chainB, Bool.and_eq_true, decide_eq_true_eq]
      refine ⟨⟨hxs, by omega⟩, ?_⟩
      rw [show s + (x.size + n.size) = s + x.size + n.size by omega]
      exact hch'
    · rw [if_neg hnf]
      simp only [chainB, Bool.and_eq_true, decide_eq_true_eq]
      exact ⟨⟨hxs, hxp⟩, ⟨hns, hnp⟩, hch'⟩

/-- The merge-with-next step preserves the no-adjacent-free invariant and
keeps the free flag of the merge point. -/
lemma mergeNext_noAdj (x : MemoryBlock) (rest : List MemoryBlock)
    (hna : noAdjB rest = true) :
    noAdjB (mergeNext x rest) = true ∧ headFreeB (mergeNext x rest) = x.free := by
  cases rest with
  | nil => simp [mergeNext, noAdjB, headFreeB]
  | cons n ns =>
    simp only [noAdjB, Bool.and_eq_true, Bool.not_eq_true'] at hna
    obtain ⟨hhd, hna'⟩ := hna
    simp only [mergeNext]
    by_cases hnf : n.free = true
    · rw [if_pos hnf]
      have hns : headFreeB ns = false := by
        rcases Bool.and_eq_false_iff.mp hhd with h1 | h2
        · rw [hnf] at h1; cases h1
        · exact h2
      constructor
      · simp only [noAdjB, Bool.and_eq_true, Bool.not_eq_true']
        exact ⟨by rw [hns]; simp, hna'⟩
      · simp [headFreeB]
    · rw [if_neg hnf]
      have hnfree : n.free = false := by
        cases hv : n.free with
        | false => rfl
        | true => exact absurd hv hnf
      constructor
      · simp only [noAdjB, Bool.and_eq_true, Bool.not_eq_true', headFreeB]
        refine ⟨by rw [hnfree]; simp, hhd, hna'⟩
      · simp [headFreeB]

/-- The merge-with-next step keeps every non-free block of the tail. -/
lemma mergeNext_mem (x b : MemoryBlock) (rest : List MemoryBlock)
    (hb : b ∈ rest) (hf : b.free = false) : b ∈ mergeNext x rest := by
  cases rest with
  | nil => cases hb
  | cons n ns =>
    simp only [mergeNext]
    by_cases hnf : n.free = true
    · rw [if_pos hnf]
      rcases List.mem_cons.mp hb with rfl | hns
      · rw [hnf] at hf; cases hf
      · exact List.mem_cons_of_mem _ hns
    · rw [if_neg hnf]
      exact List.mem_cons_of_mem _ hb

/-- The ids after a merge-with-next step form a sublist of the merge point
id followed by the tail ids. -/
lemma mergeNext_ids_sublist (x : MemoryBlock) (rest : List MemoryBlock) :
    List.Sublist (idList (mergeNext x rest)) (x.id :: idList rest) := by
  cases rest with
  | nil => simp [mergeNext, idList]
  | cons n ns =>
    simp only [mergeNext]
    by_cases hnf : n.free = true
    · rw [if_pos hnf]
      simp only [idList, List.map_cons]
      exact List.Sublist.cons₂ _ (List.Sublist.cons _ (List.Sublist.refl _))
    · rw [if_neg hnf]
      simp [idList]

/-- The deallocate scan preserves the partition chain. -/
lemma deallocFind_chainB (h : Nat) :
    ∀ (l : List MemoryBlock) (s e : Int),
      chainB s e l = true → chainB s e (deallocFind h l) = true := by
  intro l
  induction l with
  | nil => intro s e hch; exact hch
  | cons b rest ih =>
    intro s e hch
    simp only [deallocFind]
    by_cases hb : b.id = h
    · rw [if_pos hb]
      exact mergeNext_chainB _ _ _ _ hch
    · rw [if_neg hb]
      cases rest with
      | nil => exact hch
      | cons c rest2 =>
        dsimp only
        simp only [chainB, Bool.and_eq_true, decide_eq_true_eq] at hch
        obtain ⟨⟨hbs, hbp⟩, ⟨hcs, hcp⟩, hch'⟩ := hch
        by_cases hcid : c.id = h
        · rw [if_pos hcid]
          by_cases hbf : b.free = true
          · rw [if_pos hbf]
            apply mergeNext_chainB
            simp only [chainB, Bool.and_eq_true, decide_eq_true_eq]
            refine ⟨⟨hbs, by omega⟩, ?_⟩
            rw [show s + (b.size + c.size) = s + b.size + c.size by omega]
            exact hch'
          · rw [if_neg hbf]
            simp only [chainB, Bool.and_eq_true, decide_eq_true_eq]
            refine ⟨⟨hbs, hbp⟩, ?_⟩
            apply mergeNext_chainB
            simp only [chainB, Bool.and_eq_true, decide_eq_true_eq]
            exact ⟨⟨hcs, hcp⟩, hch'⟩
        · rw [if_neg hcid]
          simp only [chainB, Bool.and_eq_true, decide_eq_true_eq]
          refine ⟨⟨hbs, hbp⟩, ?_⟩
          apply ih
          simp only [chainB, Bool.and_eq_true, decide_eq_true_eq]
          exact ⟨⟨hcs, hcp⟩, hch'⟩

/-- The deallocate scan restores the no-adjacent-free invariant, and the
head of the result is free only if the original head was free or was the
target of the deallocation. -/
lemma deallocFind_noAdj (h : Nat) :
    ∀ (l : List MemoryBlock), noAdjB l = true →
      noAdjB (deallocFind h l) = true ∧
      (headFreeB (deallocFind h l) = true →
        headFreeB l = true ∨ headIdB h l = true) := by
  intro l
  induction l with
  | nil => intro _; exact ⟨rfl, by intro hh; cases hh⟩
  | cons b rest ih =>
    intro hna
    have hna' : noAdjB rest = true := by
      simp only [noAdjB, Bool.and_eq_true] at hna
      exact hna.2
    have hhd : (b.free && headFreeB rest) = false := by
      simp only [noAdjB, Bool.and_eq_true, Bool.not_eq_true'] at hna
      exact hna.1
    simp only [deallocFind]
    by_cases hb : b.id = h
    · rw [if_pos hb]
      obtain ⟨h1, _⟩ := mergeNext_noAdj { b with free := true } rest hna'
      exact ⟨h1, fun _ => Or.inr (by simp [headIdB, hb])⟩
    · rw [if_neg hb]
      cases rest with
      | nil =>
        refine ⟨by simp [noAdjB, headFreeB], fun hh => Or.inl hh⟩
      | cons c rest2 =>
        dsimp only
        have hna2 : noAdjB rest2 = true := by
          simp only [noAdjB, Bool.and_eq_true] at hna'
          exact hna'.2
        have hhd2 : (c.free && headFreeB rest2) = false := by
          simp only [noAdjB, Bool.and_eq_true, Bool.not_eq_true'] at hna'
          exact hna'.1
        simp only [headFreeB] at hhd
        by_cases hcid : c.id = h
        · rw [if_pos hcid]
          by_cases hbf : b.free = true
          · rw [if_pos hbf]
            obtain ⟨h1, h2⟩ := mergeNext_noAdj { b with size := b.size + c.size } rest2 hna2
            refine ⟨h1, fun _ => Or.inl ?_⟩
            simp only [headFreeB]
            exact hbf
          · rw [if_neg hbf]
            obtain ⟨h1, h2⟩ := mergeNext_noAdj { c with free := true } rest2 hna2
            constructor
            · simp only [noAdjB, Bool.and_eq_true, Bool.not_eq_true']
              refine ⟨?_, h1⟩
              rw [h2]
              simp only
              cases hv : b.free with
              | false => simp
              | true => exact absurd hv hbf
            · intro hh
              simp only [headFreeB] at hh
              exact Or.inl hh
        · rw [if_neg hcid]
          obtain ⟨h1, h2⟩ := ih hna'
          constructor
          · simp only [noAdjB, Bool.and_eq_true, Bool.not_eq_true']
            refine ⟨?_, h1⟩
            cases hv : b.free with
            | false => simp
            | true =>
              cases hw : headFreeB (deallocFind h (c :: rest2)) with
              | false => simp
              | true =>
                exfalso
                rcases h2 hw with hcf | hid
                · simp only [headFreeB] at hcf
                  rw [hv, hcf] at hhd; cases hhd
                · simp only [headIdB, decide_eq_true_eq] at hid
                  exact hcid hid
          · intro hh
            simp only [headFreeB] at hh
            exact Or.inl hh

/-- A deallocate scan for an id that occurs nowhere is a no-op. -/
lemma deallocFind_not_found (h : Nat) :
    ∀ (l : List MemoryBlock), (∀ b ∈ l, b.id ≠ h) → deallocFind h l = l := by
  intro l
  induction l with
  | nil => intro _; rfl
  | cons b rest ih =>
    intro hall
    simp only [deallocFind]
    rw [if_neg (hall b (by simp))]
    cases rest with
    | nil => rfl
    | cons c rest2 =>
      dsimp only
      rw [if_neg (hall c (by simp))]
      rw [ih (fun x hx => hall x (List.mem_cons_of_mem _ hx))]

/-- Under the no-adjacent-free invariant, a deallocate scan whose target id
resolves only to already-free blocks (or to no block at all) is a no-op. -/
lemma deallocFind_noop (h : Nat) :
    ∀ (l : List MemoryBlock), noAdjB l = true →
      (∀ b ∈ l, b.id = h → b.free = true) → deallocFind h l = l := by
  intro l
  induction l with
  | nil => intro _ _; rfl
  | cons b rest ih =>
    intro hna hfree
    have hna' : noAdjB rest = true := by
      simp only [noAdjB, Bool.and_eq_true] at hna
      exact hna.2
    have hhd : (b.free && headFreeB rest) = false := by
      simp only [noAdjB, Bool.and_eq_true, Bool.not_eq_true'] at hna
      exact hna.1
    simp only [deallocFind]
    by_cases hb : b.id = h
    · rw [if_pos hb]
      have hbf : b.free = true := hfree b (by simp) hb
      rw [MemoryBlock.set_free_self b hbf]
      have hrest : headFreeB rest = false := by
        rcases Bool.and_eq_false_iff.mp hhd with h1 | h2
        · rw [hbf] at h1; cases h1
        · exact h2
      exact mergeNext_not_free b rest hrest
    · rw [if_neg hb]
      cases rest with
      | nil => rfl
      | cons c rest2 =>
        dsimp only
        have hhd2 : (c.free && headFreeB rest2) = false := by
          simp only [noAdjB, Bool.and_eq_true, Bool.not_eq_true'] at hna'
          exact hna'.1
        by_cases hcid : c.id = h
        · rw [if_pos hcid]
          have hcf : c.free = true := hfree c (by simp) hcid
          have hbf : b.free = false := by
            simp only [headFreeB] at hhd
            rcases Bool.and_eq_false_iff.mp hhd with h1 | h2
            · exact h1
            · rw [hcf] at h2; cases h2
          rw [if_neg (by rw [hbf]; exact Bool.false_ne_true)]
          rw [MemoryBlock.set_free_self c hcf]
          have hrest2 : headFreeB rest2 = false := by
            rcases Bool.and_eq_false_iff.mp hhd2 with h1 | h2
            · rw [hcf] at h1; cases h1
            · exact h2
          rw [mergeNext_not_free c rest2 hrest2]
        · rw [if_neg hcid]
          rw [ih hna' (fun x hx hxid => hfree x (List.mem_cons_of_mem _ hx) hxid)]

/-- The ids after a deallocate scan form a sublist of the original ids. -/
lemma deallocFind_ids_sublist (h : Nat) :
    ∀ (l : List MemoryBlock),
      List.Sublist (idList (deallocFind h l)) (idList l) := by
  intro l
  induction l with
  | nil => exact List.Sublist.refl _
  | cons b rest ih =>
    simp only [deallocFind]
    by_cases hb : b.id = h
    · rw [if_pos hb]
      exact mergeNext_ids_sublist { b with free := true } rest
    · rw [if_neg hb]
      cases rest with
      | nil => exact List.Sublist.refl _
      | cons c rest2 =>
        dsimp only
        by_cases hcid : c.id = h
        · rw [if_pos hcid]
          by_cases hbf : b.free = true
          · rw [if_pos hbf]
            refine List.Sublist.trans
              (mergeNext_ids_sublist { b with size := b.size + c.size } rest2) ?_
            simp only [idList, List.map_cons]
            exact List.Sublist.cons₂ _ (List.Sublist.cons _ (List.Sublist.refl _))
          · rw [if_neg hbf]
            simp only [idList, List.map_cons]
            refine List.Sublist.cons₂ _ ?_
            refine List.Sublist.trans (mergeNext_ids_sublist { c with free := true } rest2) ?_
            exact List.Sublist.refl _
        · rw [if_neg hcid]
          simp only [idList, List.map_cons]
          exact List.Sublist.cons₂ _ ih

/-- A deallocate scan keeps every allocated (non-free) block other than its
target untouched in the list. -/
lemma deallocFind_mem_preserved (h : Nat) :
    ∀ (l : List MemoryBlock) (b : MemoryBlock),
      b ∈ l → b.free = false → b.id ≠ h → b ∈ deallocFind h l := by
  intro l
  induction l with
  | nil => intro b hb _ _; cases hb
  | cons x rest ih =>
    intro b hb hf hne
    simp only [deallocFind]
    by_cases hx : x.id = h
    · rw [if_pos hx]
      have hbx : b ≠ x := by
        intro heq; rw [heq] at hne; exact hne hx
      have hbrest : b ∈ rest := by
        rcases List.mem_cons.mp hb with rfl | hr
        · exact absurd rfl hbx
        · exact hr
      exact mergeNext_mem _ _ _ hbrest hf
    · rw [if_neg hx]
      cases rest with
      | nil =>
        rcases List.mem_cons.mp hb with rfl | hr
        · exact List.mem_cons_self _ _
        · cases hr
      | cons c rest2 =>
        dsimp only
        by_cases hcid : c.id = h
        · rw [if_pos hcid]
          have hbc : b ≠ c := by
            intro heq; rw [heq] at hne; exact hne hcid
          by_cases hxf : x.free = true
          · rw [if_pos hxf]
            have hbrest2 : b ∈ rest2 := by
              rcases List.mem_cons.mp hb with rfl | hr
              · rw [hxf] at hf; cases hf
              · rcases List.mem_cons.mp hr with rfl | hr2
                · exact absurd rfl hbc
                · exact hr2
            exact mergeNext_mem _ _ _ hbrest2 hf
          · rw [if_neg hxf]
            rcases List.mem_cons.mp hb with rfl | hr
            · exact List.mem_cons_self _ _
            · rcases List.mem_cons.mp hr with rfl | hr2
              · exact absurd rfl hbc
              · exact List.mem_cons_of_mem _ (mergeNext_mem _ _ _ hr2 hf)
        · rw [if_neg hcid]
          rcases List.mem_cons.mp hb with rfl | hr
          · exact List.mem_cons_self _ _
          · exact List.mem_cons_of_mem _ (ih b hr hf hne)

/-! ### The reachability invariant of the `main.cpp` allocator -/

/-- An id occurring among a list of blocks all of whose ids are below the
bound is itself below the bound. -/
lemma idList_lt_of_mem (l : List MemoryBlock) (n : Nat)
    (hlt : ∀ b ∈ l, b.id < n) (i : Nat) (hi : i ∈ idList l) : i < n := by
  simp only [idList, List.mem_map] at hi
  obtain ⟨b, hb, rfl⟩ := hi
  exact hlt b hb

/-- `allocate` preserves the allocator invariant for positive requests. -/
lemma arenaInv_alloc (total : Int) (a : FFA) (sz : Int)
    (hinv : ArenaInv total a) (hsz : 0 < sz) : ArenaInv total (allocate a sz).2 := by
  obtain ⟨hts, hch, hna, hnd, hlt⟩ := hinv
  cases hgo : allocGo a.nextId sz a.blocks with
  | none =>
    simp only [allocate, hgo]
    exact ⟨hts, hch, hna, hnd, hlt⟩
  | some p =>
    obtain ⟨h, bl⟩ := p
    have hfresh : a.nextId ∉ idList a.blocks := by
      intro hmem
      exact absurd (idList_lt_of_mem _ _ hlt _ hmem) (lt_irrefl _)
    simp only [allocate, hgo]
    refine ⟨hts, ?_, ?_, ?_, ?_⟩
    · exact allocGo_chainB _ _ hsz _ _ _ _ _ hch hgo
    · exact (allocGo_noAdj _ _ _ _ _ hna hgo).1
    · exact (allocGo_ids _ _ _ _ _ hgo).2 hnd hfresh
    · intro b hb
      have hbid : b.id ∈ idList bl := List.mem_map_of_mem _ hb
      rcases (allocGo_ids _ _ _ _ _ hgo).1 _ hbid with heq | hold
      · rw [heq]
        exact Nat.lt_succ_self _
      · exact Nat.lt_succ_of_lt (idList_lt_of_mem _ _ hlt _ hold)

/-- `deallocate` preserves the allocator invariant. -/
lemma arenaInv_dealloc (total : Int) (a : FFA) (h : Option Nat)
    (hinv : ArenaInv total a) : ArenaInv total (deallocate a h) := by
  obtain ⟨hts, hch, hna, hnd, hlt⟩ := hinv
  cases h with
  | none => exact ⟨hts, hch, hna, hnd, hlt⟩
  | some hid =>
    simp only [deallocate]
    refine ⟨hts, ?_, ?_, ?_, ?_⟩
    · exact deallocFind_chainB _ _ _ _ hch
    · exact (deallocFind_noAdj _ _ hna).1
    · exact List.Nodup.sublist (deallocFind_ids_sublist hid a.blocks) hnd
    · intro b hb
      have hbid : b.id ∈ idList (deallocFind hid a.blocks) := List.mem_map_of_mem _ hb
      have hsub := (deallocFind_ids_sublist hid a.blocks).subset hbid
      exact idList_lt_of_mem _ _ hlt _ hsub

/-- Every reachable state of a positively-sized arena satisfies the
allocator invariant. -/
lemma reach_arenaInv (total : Int) (a : FFA) (ht : 0 < total)
    (hr : Reach total a) : ArenaInv total a := by
  induction hr with
  | init =>
    refine ⟨rfl, ?_, by simp [mkFFA, noAdjB, headFreeB], by simp [mkFFA, idList], ?_⟩
    · simp only [mkFFA, chainB, Bool.and_eq_true, decide_eq_true_eq]
      exact ⟨⟨trivial, ht⟩, by omega⟩
    · intro b hb
      simp only [mkFFA, List.mem_singleton] at hb
      rw [hb]
      exact Nat.lt_succ_self _
  | alloc _ hsz ih => exact arenaInv_alloc _ _ _ ih hsz
  | dealloc h _ ih => exact arenaInv_dealloc _ _ h ih

/-! ### Consequences of the partition chain -/

/-- All blocks of a chained list have positive size. -/
lemma chainB_sizes_pos : ∀ (l : List MemoryBlock) (s e : Int),
    chainB s e l = true → ∀ b ∈ l, 0 < b.size := by
  intro l
  induction l with
  | nil => intro s e _ b hb; cases hb
  | cons x rest ih =>
    intro s e hch b hb
    simp only [chainB, Bool.and_eq_true, decide_eq_true_eq] at hch
    rcases List.mem_cons.mp hb with rfl | hr
    · exact hch.1.2
    · exact ih _ _ hch.2 b hr

/-- The sizes of a chained list sum to the spanned length. -/
lemma chainB_sum : ∀ (l : List MemoryBlock) (s e : Int),
    chainB s e l = true → sumSizes l = e - s := by
  intro l
  induction l with
  | nil =>
    intro s e hch
    simp only [chainB, decide_eq_true_eq] at hch
    simp [sumSizes, hch]
  | cons x rest ih =>
    intro s e hch
    simp only [chainB, Bool.and_eq_true, decide_eq_true_eq] at hch
    have := ih _ _ hch.2
    simp only [sumSizes, List.map_cons, List.sum_cons] at this ⊢
    omega

/-- A chained list is strictly sorted by start address. -/
lemma chainB_sorted : ∀ (l : List MemoryBlock) (s e : Int),
    chainB s e l = true → sortedByStartB l = true := by
  intro l
  induction l with
  | nil => intro s e _; rfl
  | cons x rest ih =>
    intro s e hch
    simp only [chainB, Bool.and_eq_true, decide_eq_true_eq] at hch
    obtain ⟨⟨hxs, hxp⟩, hch'⟩ := hch
    cases rest with
    | nil => rfl
    | cons c rest2 =>
      have hcs : c.start = s + x.size := by
        simp only [chainB, Bool.and_eq_true, decide_eq_true_eq] at hch'
        exact hch'.1.1
      have hrec : sortedByStartB (c :: rest2) = true := ih _ _ hch'
      simp only [sortedByStartB, Bool.and_eq_true, decide_eq_true_eq]
      exact ⟨by omega, hrec⟩

/-- A chained list spanning a nonempty range starts with a block at the
left end of the range. -/
lemma chainB_head_start (l : List MemoryBlock) (s e : Int)
    (hch : chainB s e l = true) (hne : s ≠ e) :
    ∃ b rest, l = b :: rest ∧ b.start = s := by
  cases l with
  | nil =>
    simp only [chainB, decide_eq_true_eq] at hch
    exact absurd hch hne
  | cons b rest =>
    simp only [chainB, Bool.and_eq_true, decide_eq_true_eq] at hch
    exact ⟨b, rest, rfl, hch.1.1⟩

/-- With pairwise-distinct ids, filtering a list for the id of one of its
members yields exactly that member. -/
lemma filter_id_unique : ∀ (l : List MemoryBlock) (b : MemoryBlock),
    (idList l).Nodup → b ∈ l → l.filter (fun x => x.id == b.id) = [b] := by
  intro l
  induction l with
  | nil => intro b _ hb; cases hb
  | cons a t ih =>
    intro b hnd hb
    simp only [idList, List.map_cons, List.nodup_cons] at hnd
    obtain ⟨hna, hnd'⟩ := hnd
    rcases List.mem_cons.mp hb with rfl | hbt
    · rw [List.filter_cons_of_pos (by simp)]
      have hnone : t.filter (fun x => x.id == b.id) = [] := by
        apply List.filter_eq_nil_iff.mpr
        intro x hx
        simp only [beq_iff_eq]
        intro heq
        exact hna (by rw [← heq]; exact List.mem_map_of_mem _ hx)
      rw [hnone]
    · have hne : (a.id == b.id) = false := by
        simp only [beq_eq_false_iff_ne, ne_eq]
        intro heq
        exact hna (by rw [heq]; exact List.mem_map_of_mem _ hbt)
      rw [List.filter_cons_of_neg (by simp [hne])]
      exact ih b hnd' hbt

/-! ### Lemmas about the schedulers of `main.cpp` -/

/-- The re-queue decision of one round-robin iteration: either the task is
dropped, or it is re-queued with its remaining time decremented by the
slice and still positive. -/
lemma rrStep_requeue (quantum : Int) (t : RealTimeTask) (a : FFA) :
    (rrStep quantum t a).2.1 = none ∨
    ∃ t', (rrStep quantum t a).2.1 = some t' ∧
      t'.executionTime = t.executionTime - min t.executionTime quantum ∧
      0 < t'.executionTime := by
  cases hall : allocate a t.memoryRequired with
  | mk ho a1 =>
    cases ho with
    | none => left; simp [rrStep, hall]
    | some h =>
      simp only [rrStep, hall]
      dsimp only
      split
      · next hpos => right; exact ⟨_, rfl, rfl, hpos⟩
      · next => left; rfl

/-- One round-robin iteration strictly decreases the termination measure
when the quantum is positive. -/
lemma rrStep_measure (quantum : Int) (hq : 0 < quantum) (t : RealTimeTask)
    (rest : List RealTimeTask) (a : FFA) :
    rrMeasure (rest ++
        (match (rrStep quantum t a).2.1 with | some t' => [t'] | none => [])) <
      rrMeasure (t :: rest) := by
  rcases rrStep_requeue quantum t a with hnone | ⟨t', hsome, het, hpos⟩
  · rw [hnone]
    simp only [List.append_nil, rrMeasure, List.length_cons, List.map_cons, List.sum_cons]
    omega
  · rw [hsome]
    simp only [rrMeasure, List.length_append, List.length_cons, List.length_nil,
      List.map_append, List.map_cons, List.map_nil, List.sum_append, List.sum_cons,
      List.sum_nil]
    omega

/-- With positive quantum and enough fuel, the round-robin loop terminates
with an empty queue. -/
lemma rrRun_drains (quantum : Int) (hq : 0 < quantum) :
    ∀ (fuel : Nat) (q : List RealTimeTask) (a : FFA),
      rrMeasure q ≤ fuel → (rrRun quantum fuel q a).2.1 = [] := by
  intro fuel
  induction fuel with
  | zero =>
    intro q a hm
    cases q with
    | nil => rfl
    | cons t rest =>
      exfalso
      simp only [rrMeasure, List.length_cons] at hm
      omega
  | succ n ih =>
    intro q a hm
    cases q with
    | nil => rfl
    | cons t rest =>
      have hlt := rrStep_measure quantum hq t rest a
      have hm' : rrMeasure (t :: rest) ≤ n + 1 := hm
      simp only [rrRun]
      apply ih
      omega

/-- The SJF loop logs exactly one event per task, in order, carrying the
task id. -/
lemma sjfRun_taskIds : ∀ (l : List RealTimeTask) (a : FFA),
    (sjfRun l a).1.map SJEvent.taskId = l.map (·.id) := by
  intro l
  induction l with
  | nil => intro a; rfl
  | cons t rest ih =>
    intro a
    cases hall : allocate a t.memoryRequired with
    | mk ho a1 =>
      cases ho with
      | none =>
        simp only [sjfRun, hall, List.map_cons, SJEvent.taskId]
        rw [ih]
      | some h =>
        simp only [sjfRun, hall, List.map_cons, SJEvent.taskId]
        rw [ih]

/-- A permutation between two-element lists is the identity or the swap. -/
lemma perm_pair_eq {α : Type} {a b x y : α} (h : List.Perm [a, b] [x, y]) :
    (a = x ∧ b = y) ∨ (a = y ∧ b = x) := by
  have ha : a ∈ [x, y] := h.subset (by simp)
  rcases List.mem_cons.mp ha with rfl | ha'
  · left
    refine ⟨rfl, ?_⟩
    have h2 := h.cons_inv
    have := List.perm_singleton.mp h2
    simpa using this
  · have hay : a = y := by simpa using ha'
    subst hay
    right
    refine ⟨rfl, ?_⟩
    have hsw : List.Perm [x, a] [a, x] := List.Perm.swap a x []
    have h2 := (h.trans hsw).cons_inv
    have := List.perm_singleton.mp h2
    simpa using this

/-- For two tasks with strictly different execution times, every valid
`std::sort` outcome (from either insertion order) puts the shorter task
first. -/
lemma stdSort_two_distinct (x y : RealTimeTask) (l' : List RealTimeTask)
    (hlt : x.executionTime < y.executionTime)
    (h : IsStdSortOutcome [x, y] l' ∨ IsStdSortOutcome [y, x] l') : l' = [x, y] := by
  have hperm : l'.Perm [x, y] := by
    rcases h with ⟨hp, _⟩ | ⟨hp, _⟩
    · exact hp
    · exact hp.trans (List.Perm.swap x y [])
  have hsorted : List.Pairwise (fun u v => u.executionTime ≤ v.executionTime) l' := by
    rcases h with ⟨_, hs⟩ | ⟨_, hs⟩ <;> exact hs
  have hlen : l'.length = 2 := by rw [hperm.length_eq]; rfl
  obtain ⟨u, v, rfl⟩ := List.length_eq_two.mp hlen
  rcases perm_pair_eq hperm with ⟨rfl, rfl⟩ | ⟨rfl, rfl⟩
  · rfl
  · simp only [List.pairwise_cons] at hsorted
    have := hsorted.1 v (by simp)
    omega

/-! ### Lemmas about the `FirstFitAllocator.h` allocate scan -/

/-- Scanning past a prefix of non-candidates, the first candidate block is
taken: allocated whole within the threshold, split otherwise with the
remainder pushed to the back of the vector. -/
lemma allocGoH_decomp (sz : Int) :
    ∀ (pre : List HBlock) (b : HBlock) (suf : List HBlock) (i : Nat),
      (∀ p ∈ pre, ¬(p.free = true ∧ sz ≤ p.size)) →
      b.free = true → sz ≤ b.size →
      allocGoH sz (pre ++ b :: suf) i =
        (if b.size ≤ sz + 16 then
          some (i + pre.length, pre ++ { b with free := false } :: suf)
         else
          some (i + pre.length, pre ++ { b with size := sz, free := false } ::
            (suf ++ [⟨b.start + sz, b.size - sz, true⟩]))) := by
  intro pre
  induction pre with
  | nil =>
    intro b suf i hpre hfree hsz
    simp only [List.nil_append, allocGoH, List.length_nil, Nat.add_zero]
    rw [if_pos ⟨hfree, hsz⟩]
  | cons p pre' ih =>
    intro b suf i hpre hfree hsz
    have hp : ¬(p.free = true ∧ sz ≤ p.size) := hpre p (by simp)
    simp only [List.cons_append, allocGoH, List.append_eq]
    rw [if_neg hp]
    rw [ih b suf (i + 1) (fun q hq => hpre q (List.mem_cons_of_mem _ hq)) hfree hsz]
    by_cases hth : b.size ≤ sz + 16
    · rw [if_pos hth, if_pos hth]
      dsimp only
      have heq : i + 1 + pre'.length = i + (pre'.length + 1) := by omega
      rw [List.length_cons, heq]
    · rw [if_neg hth, if_neg hth]
      dsimp only
      have heq : i + 1 + pre'.length = i + (pre'.length + 1) := by omega
      rw [List.length_cons, heq]

/-! ### Claim theorems -/

/-- C1: for every arena state reachable by any sequence of interface
`allocate` (positive size) and `deallocate` calls from `mkFFA total` with
`total > 0`, the block list partitions the address range 0 to `total`
exactly: it is chained (each block starts where the previous one ends),
sorted by start, its first block starts at 0, all sizes are positive and
the sizes sum to `total`. -/
theorem reachable_partition (total : Int) (a : FFA) (ht : 0 < total)
    (hr : Reach total a) :
    chainB 0 total a.blocks = true ∧
    sortedByStartB a.blocks = true ∧
    (∃ b rest, a.blocks = b :: rest ∧ b.start = 0) ∧
    (∀ b ∈ a.blocks, 0 < b.size) ∧
    sumSizes a.blocks = total := by
  obtain ⟨_, hch, _, _, _⟩ := reach_arenaInv total a ht hr
  refine ⟨hch, chainB_sorted _ _ _ hch, ?_, chainB_sizes_pos _ _ _ hch, ?_⟩
  · exact chainB_head_start _ _ _ hch (by omega)
  · have := chainB_sum _ _ _ hch
    omega

/-- Witness for C1 at the concrete reachable state obtained by allocating
900 units out of a 1000-unit arena. -/
theorem reachable_partition_witness :
    chainB 0 1000 ((allocate (mkFFA 1000) 900).2).blocks = true ∧
    sortedByStartB ((allocate (mkFFA 1000) 900).2).blocks = true ∧
    (∃ b rest, ((allocate (mkFFA 1000) 900).2).blocks = b :: rest ∧ b.start = 0) ∧
    (∀ b ∈ ((allocate (mkFFA 1000) 900).2).blocks, 0 < b.size) ∧
    sumSizes ((allocate (mkFFA 1000) 900).2).blocks = 1000 :=
  reachable_partition 1000 _ (by decide) (Reach.alloc Reach.init (by decide))

/-- C2: in every reachable arena state (in particular after each completed
`allocate` or `deallocate` call), no two address-adjacent blocks are both
free. -/
theorem reachable_no_adjacent_free (total : Int) (a : FFA) (ht : 0 < total)
    (hr : Reach total a) : noAdjB a.blocks = true :=
  (reach_arenaInv total a ht hr).2.2.1

/-- Witness for C2 at the concrete state reached by allocating 900 units
and deallocating them again in a 1000-unit arena. -/
theorem reachable_no_adjacent_free_witness :
    noAdjB (deallocate (allocate (mkFFA 1000) 900).2 (some 0)).blocks = true :=
  reachable_no_adjacent_free 1000 _ (by decide)
    (Reach.dealloc (some 0) (Reach.alloc Reach.init (by decide)))

/-- C4: in every reachable arena state the block list is sorted by start
address, so the allocate scan visits blocks in address order; a successful
call selects the first free block with `size ≥ requested`; the call fails
exactly when no free block is large enough, and a failed call leaves the
state unchanged. -/
theorem first_fit_allocation (total : Int) (a : FFA) (sz : Int) (ht : 0 < total)
    (hr : Reach total a) :
    sortedByStartB a.blocks = true ∧
    (∀ h a', allocate a sz = (some h, a') →
      ∃ pre b suf, a.blocks = pre ++ b :: suf ∧
        (∀ p ∈ pre, ¬(p.free = true ∧ sz ≤ p.size)) ∧
        b.free = true ∧ sz ≤ b.size ∧ h = b.id) ∧
    ((allocate a sz).1 = none ↔ ∀ b ∈ a.blocks, ¬(b.free = true ∧ sz ≤ b.size)) ∧
    ((allocate a sz).1 = none → (allocate a sz).2 = a) := by
  obtain ⟨_, hch, _, _, _⟩ := reach_arenaInv total a ht hr
  refine ⟨chainB_sorted _ _ _ hch, ?_, ?_, ?_⟩
  · intro h a' hall
    cases hgo : allocGo a.nextId sz a.blocks with
    | none => simp [allocate, hgo] at hall
    | some p =>
      obtain ⟨h0, bl⟩ := p
      simp only [allocate, hgo, Prod.mk.injEq, Option.some.injEq] at hall
      obtain ⟨rfl, rfl⟩ := hall
      obtain ⟨pre, b, suf, hsp, hpre, hbf, hbs, hid, _⟩ :=
        allocGo_some_decomp _ _ _ _ _ hgo
      exact ⟨pre, b, suf, hsp, hpre, hbf, hbs, hid⟩
  · constructor
    · intro hnone
      cases hgo : allocGo a.nextId sz a.blocks with
      | none => exact (allocGo_none_iff _ _ _).mp hgo
      | some p =>
        obtain ⟨h0, bl⟩ := p
        simp [allocate, hgo] at hnone
    · intro hall
      have hgo := (allocGo_none_iff a.nextId sz a.blocks).mpr hall
      simp [allocate, hgo]
  · intro hnone
    cases hgo : allocGo a.nextId sz a.blocks with
    | none => simp [allocate, hgo]
    | some p =>
      obtain ⟨h0, bl⟩ := p
      simp [allocate, hgo] at hnone

/-- Witness for C4 at the allocation-failure scenario of the spec: a
1000-unit arena holding an allocated block of 900, asked for 150. -/
theorem first_fit_allocation_witness :
    sortedByStartB ((allocate (mkFFA 1000) 900).2).blocks = true ∧
    (∀ h a', allocate (allocate (mkFFA 1000) 900).2 150 = (some h, a') →
      ∃ pre b suf, ((allocate (mkFFA 1000) 900).2).blocks = pre ++ b :: suf ∧
        (∀ p ∈ pre, ¬(p.free = true ∧ (150 : Int) ≤ p.size)) ∧
        b.free = true ∧ (150 : Int) ≤ b.size ∧ h = b.id) ∧
    ((allocate (allocate (mkFFA 1000) 900).2 150).1 = none ↔
      ∀ b ∈ ((allocate (mkFFA 1000) 900).2).blocks,
        ¬(b.free = true ∧ (150 : Int) ≤ b.size)) ∧
    ((allocate (allocate (mkFFA 1000) 900).2 150).1 = none →
      (allocate (allocate (mkFFA 1000) 900).2 150).2 = (allocate (mkFFA 1000) 900).2) :=
  first_fit_allocation 1000 _ 150 (by decide) (Reach.alloc Reach.init (by decide))

/-- C5: a handle returned for a currently-allocated block keeps resolving
to exactly that block (same id, start, size, allocation state) across any
further `allocate` call and across any `deallocate` call for a different
handle; only deallocating the block itself can remove it. -/
theorem handle_stability (total : Int) (a : FFA) (b : MemoryBlock) (ht : 0 < total)
    (hr : Reach total a) (hb : b ∈ a.blocks) (hfree : b.free = false) :
    (∀ sz : Int, b ∈ ((allocate a sz).2).blocks ∧
      ((allocate a sz).2).blocks.filter (fun x => x.id == b.id) = [b]) ∧
    (∀ h : Option Nat, h ≠ some b.id →
      b ∈ (deallocate a h).blocks ∧
      (deallocate a h).blocks.filter (fun x => x.id == b.id) = [b]) := by
  obtain ⟨_, _, _, hnd, hlt⟩ := reach_arenaInv total a ht hr
  constructor
  · intro sz
    cases hgo : allocGo a.nextId sz a.blocks with
    | none =>
      simp only [allocate, hgo]
      exact ⟨hb, filter_id_unique _ _ hnd hb⟩
    | some p =>
      obtain ⟨h0, bl⟩ := p
      simp only [allocate, hgo]
      have hmem := allocGo_mem_preserved _ _ _ _ _ _ hb hfree hgo
      have hfresh : a.nextId ∉ idList a.blocks := fun hmem' =>
        absurd (idList_lt_of_mem _ _ hlt _ hmem') (lt_irrefl _)
      have hnd' := (allocGo_ids _ _ _ _ _ hgo).2 hnd hfresh
      exact ⟨hmem, filter_id_unique _ _ hnd' hmem⟩
  · intro h hne
    cases h with
    | none => exact ⟨hb, filter_id_unique _ _ hnd hb⟩
    | some hid =>
      have hne' : b.id ≠ hid := fun heq => hne (by rw [heq])
      simp only [deallocate]
      have hmem := deallocFind_mem_preserved hid a.blocks b hb hfree hne'
      have hnd' := List.Nodup.sublist (deallocFind_ids_sublist hid a.blocks) hnd
      exact ⟨hmem, filter_id_unique _ _ hnd' hmem⟩

/-- Witness for C5: the block allocated at address 0 of size 900 in a
1000-unit arena stays resolvable through further operations. -/
theorem handle_stability_witness :
    (∀ sz : Int,
      (⟨0, 0, 900, false⟩ : MemoryBlock) ∈
        ((allocate (allocate (mkFFA 1000) 900).2 sz).2).blocks ∧
      ((allocate (allocate (mkFFA 1000) 900).2 sz).2).blocks.filter
        (fun x => x.id == (0 : Nat)) = [⟨0, 0, 900, false⟩]) ∧
    (∀ h : Option Nat, h ≠ some 0 →
      (⟨0, 0, 900, false⟩ : MemoryBlock) ∈
        (deallocate (allocate (mkFFA 1000) 900).2 h).blocks ∧
      (deallocate (allocate (mkFFA 1000) 900).2 h).blocks.filter
        (fun x => x.id == (0 : Nat)) = [⟨0, 0, 900, false⟩]) :=
  handle_stability 1000 _ ⟨0, 0, 900, false⟩ (by decide)
    (Reach.alloc Reach.init (by decide)) (by decide) rfl

/-- C8: deallocating a null handle, a handle that resolves to no block
(stale, already merged away), or a handle whose block is already free is a
no-op: the arena state is unchanged and no invariant can be corrupted. -/
theorem deallocate_invalid_noop (total : Int) (a : FFA) (ht : 0 < total)
    (hr : Reach total a) (h : Option Nat)
    (hstale : ∀ hid, h = some hid → ∀ b ∈ a.blocks, b.id = hid → b.free = true) :
    deallocate a h = a := by
  obtain ⟨_, _, hna, _, _⟩ := reach_arenaInv total a ht hr
  cases h with
  | none => rfl
  | some hid =>
    have hfree := hstale hid rfl
    simp only [deallocate]
    rw [deallocFind_noop hid a.blocks hna hfree]

/-- Witness for C8: deallocating the handle of the already-free block of
size 100 in the 900-allocated arena changes nothing. -/
theorem deallocate_invalid_noop_witness :
    deallocate (allocate (mkFFA 1000) 900).2 (some 1) = (allocate (mkFFA 1000) 900).2 :=
  deallocate_invalid_noop 1000 _ (by decide) (Reach.alloc Reach.init (by decide))
    (some 1) (by decide)

/-- C3: in `FirstFitAllocator.h`, when the first-fit candidate (first block
in scan order that is free and large enough) has size `sz + k` with
`k ≥ 0`: if `k > 16` the block is split — the allocation keeps the
candidate's start and exactly the requested size, and a new free block of
size `k` starting immediately after it (at `start + sz`) is pushed to the
back of the vector; if `k ≤ 16` the whole block of the original size is
allocated with no split. -/
theorem allocateH_threshold (sz k : Int) (pre suf : List HBlock) (b : HBlock)
    (a : FirstFitAllocatorH) (hblocks : a.blocks = pre ++ b :: suf)
    (hpre : ∀ p ∈ pre, ¬(p.free = true ∧ sz ≤ p.size))
    (hfree : b.free = true) (hsize : b.size = sz + k) (hk : 0 ≤ k) :
    (16 < k →
      allocateH a sz = (some pre.length,
        { a with blocks := pre ++ { b with size := sz, free := false } ::
            (suf ++ [⟨b.start + sz, k, true⟩]) })) ∧
    (k ≤ 16 →
      allocateH a sz = (some pre.length,
        { a with blocks := pre ++ { b with free := false } :: suf })) := by
  have hsz : sz ≤ b.size := by omega
  have hdec := allocGoH_decomp sz pre b suf 0 hpre hfree hsz
  have hbk : b.size - sz = k := by omega
  rw [hbk, Nat.zero_add] at hdec
  constructor
  · intro hgt
    have hth : ¬(b.size ≤ sz + 16) := by omega
    rw [if_neg hth] at hdec
    simp only [allocateH, hblocks, hdec]
  · intro hle
    have hth : b.size ≤ sz + 16 := by omega
    rw [if_pos hth] at hdec
    simp only [allocateH, hblocks, hdec]

/-- Witness for C3: allocating 900 from the single free block of a
1000-unit header allocator splits it (excess 100 > 16). -/
theorem allocateH_threshold_witness :
    allocateH (mkFFAH 1000) 900 =
      (some 0, { totalMemory := 1000, blocks := [⟨0, 900, false⟩, ⟨900, 100, true⟩] }) :=
  ((allocateH_threshold 900 100 [] [] ⟨0, 1000, true⟩ (mkFFAH 1000) rfl
    (by intro p hp; cases hp) rfl (by decide) (by decide)).1 (by decide)).trans (by decide)

/-- C6 (amended): a popped task whose allocation succeeds runs for
`min(executionTime, quantum)`, its remaining time is decremented by exactly
the slice and never goes negative, the block is deallocated at the end of
the slice, and the task is re-queued exactly when its remainder is
positive.  For execution times 300 and 400 with quantum 150 the slice
sequence is task 1, task 2, task 1 (task 1 finishes with 300 run), task 2,
task 2 (task 2 finishes with 400 run) — five slices, not a strict
six-slice alternation. -/
theorem rr_slice_behavior :
    (∀ (quantum : Int) (t : RealTimeTask) (a a1 : FFA) (h : Nat),
      allocate a t.memoryRequired = (some h, a1) →
      rrStep quantum t a =
        (RREvent.served t.id (min t.executionTime quantum),
         if 0 < t.executionTime - min t.executionTime quantum
         then some { t with executionTime := t.executionTime - min t.executionTime quantum }
         else none,
         deallocate a1 (some h)) ∧
      0 ≤ t.executionTime - min t.executionTime quantum) ∧
    ((rrRun 150 8 [mkRealTimeTask 1 200 300 1, mkRealTimeTask 2 250 400 1]
        (mkFFA 1000)).1 =
      [RREvent.served 1 150, RREvent.served 2 150, RREvent.served 1 150,
       RREvent.served 2 150, RREvent.served 2 100]) := by
  constructor
  · intro quantum t a a1 h hall
    refine ⟨?_, by omega⟩
    simp only [rrStep, hall]
  · decide

/-- Witness for C6 at a concrete successful allocation: task 1 of the
spec's round-robin scenario takes a 150-unit slice and is re-queued with
150 remaining. -/
theorem rr_slice_behavior_witness :
    rrStep 150 (mkRealTimeTask 1 200 300 1) (mkFFA 1000) =
      (RREvent.served 1 150, some (mkRealTimeTask 1 200 150 1),
       deallocate (allocate (mkFFA 1000) 200).2 (some 0)) ∧
    (0 : Int) ≤ 300 - min 300 150 := by
  have h := rr_slice_behavior.1 150 (mkRealTimeTask 1 200 300 1) (mkFFA 1000)
    (allocate (mkFFA 1000) 200).2 0 (by decide)
  exact ⟨h.1.trans (by decide), h.2⟩

/-- C6 counterexample: with execution times 300 and 400 and quantum 150,
the actual slice sequence is task 1, task 2, task 1, task 2, task 2 — the
strict alternation 1, 2, 1, 2, 1, 2 asserted by the claim does not
occur. -/
theorem rr_trace_counterexample :
    ((rrRun 150 8 [mkRealTimeTask 1 200 300 1, mkRealTimeTask 2 250 400 1]
        (mkFFA 1000)).1.map RREvent.taskId = [1, 2, 1, 2, 2]) ∧
    ¬((rrRun 150 8 [mkRealTimeTask 1 200 300 1, mkRealTimeTask 2 250 400 1]
        (mkFFA 1000)).1.map RREvent.taskId = [1, 2, 1, 2, 1, 2]) := by
  decide

/-- C7 counterexample: `std::sort` is not stable, so for two tasks with
equal execution times the outcome that services the later-inserted task
first is a valid execution; the claimed insertion-order tie-break is not
guaranteed by the code. -/
theorem sjf_tie_counterexample :
    ¬(∀ l' : List RealTimeTask,
        IsStdSortOutcome [mkRealTimeTask 1 50 100 2, mkRealTimeTask 2 50 100 2] l' →
        (sjfRun l' (mkFFA 1000)).1.map SJEvent.taskId = [1, 2]) := by
  intro hcl
  have hperm : List.Perm [mkRealTimeTask 2 50 100 2, mkRealTimeTask 1 50 100 2]
      [mkRealTimeTask 1 50 100 2, mkRealTimeTask 2 50 100 2] :=
    List.Perm.swap _ _ _
  have h := hcl [mkRealTimeTask 2 50 100 2, mkRealTimeTask 1 50 100 2]
    ⟨hperm, by decide⟩
  exact absurd h (by decide)

/-- C7 (amended): every valid `std::sort` outcome services tasks in
ascending order of execution time, one service event per task in that
order; for two tasks with execution times 200 and 500 the 200-task is
serviced strictly first regardless of insertion order; but the order among
tasks with equal execution times is unspecified (`std::sort` is not
stable). -/
theorem sjf_order_amended :
    (∀ (l l' : List RealTimeTask) (a : FFA), IsStdSortOutcome l l' →
      List.Pairwise (fun x y => x.executionTime ≤ y.executionTime) l' ∧
      (sjfRun l' a).1.map SJEvent.taskId = l'.map (fun t => t.id)) ∧
    (∀ (x y : RealTimeTask) (l' : List RealTimeTask) (a : FFA),
      x.executionTime = 200 → y.executionTime = 500 →
      (IsStdSortOutcome [x, y] l' ∨ IsStdSortOutcome [y, x] l') →
      l' = [x, y] ∧ (sjfRun l' a).1.map SJEvent.taskId = [x.id, y.id]) := by
  constructor
  · intro l l' a hout
    exact ⟨hout.2, sjfRun_taskIds l' a⟩
  · intro x y l' a hx hy hout
    have hl : l' = [x, y] := stdSort_two_distinct x y l' (by omega) hout
    subst hl
    exact ⟨rfl, sjfRun_taskIds [x, y] a⟩

/-- Witness for C7 at the spec's SJF scenario: tasks with execution times
500 and 200 inserted in that order; the valid outcome services the 200-task
first. -/
theorem sjf_order_amended_witness :
    (List.Pairwise (fun x y => x.executionTime ≤ y.executionTime)
        [mkRealTimeTask 4 100 200 2, mkRealTimeTask 3 150 500 2] ∧
      (sjfRun [mkRealTimeTask 4 100 200 2, mkRealTimeTask 3 150 500 2]
          (mkFFA 1000)).1.map SJEvent.taskId =
        [mkRealTimeTask 4 100 200 2, mkRealTimeTask 3 150 500 2].map (fun t => t.id)) ∧
    ([mkRealTimeTask 4 100 200 2, mkRealTimeTask 3 150 500 2] =
        [mkRealTimeTask 4 100 200 2, mkRealTimeTask 3 150 500 2] ∧
      (sjfRun [mkRealTimeTask 4 100 200 2, mkRealTimeTask 3 150 500 2]
          (mkFFA 1000)).1.map SJEvent.taskId =
        [(mkRealTimeTask 4 100 200 2).id, (mkRealTimeTask 3 150 500 2).id]) := by
  constructor
  · exact sjf_order_amended.1 [mkRealTimeTask 3 150 500 2, mkRealTimeTask 4 100 200 2]
      [mkRealTimeTask 4 100 200 2, mkRealTimeTask 3 150 500 2] (mkFFA 1000)
      ⟨List.Perm.swap _ _ _, by decide⟩
  · exact sjf_order_amended.2 (mkRealTimeTask 4 100 200 2) (mkRealTimeTask 3 150 500 2)
      [mkRealTimeTask 4 100 200 2, mkRealTimeTask 3 150 500 2] (mkFFA 1000)
      (by decide) (by decide)
      (Or.inr ⟨List.Perm.swap _ _ _, by decide⟩)

/-- C9 counterexample: an arena constructed with non-positive `totalSize`
is not rejected — both constructors create it holding the initial block,
and a task stores a non-positive `memoryRequired` verbatim. -/
theorem construction_no_validation_counterexample :
    (mkFFA 0).blocks = [⟨0, 0, 0, true⟩] ∧
    (mkFFA (-7)).blocks = [⟨0, 0, -7, true⟩] ∧
    (mkFFAH (-7)).blocks = [⟨0, -7, true⟩] ∧
    (mkRealTimeTask 1 (-3) 10 2).memoryRequired = -3 :=
  ⟨rfl, rfl, rfl, rfl⟩

/-- C9 (amended): no construction-time validation exists — for every
`totalSize` (including non-positive values) the constructors create the
arena holding the single initial block of that size, and the task
constructor stores all fields, including non-positive `memoryRequired`,
verbatim. -/
theorem construction_no_validation :
    ∀ (total i mem execTime prio : Int),
      (mkFFA total).blocks = [⟨0, 0, total, true⟩] ∧
      (mkFFA total).totalSize = total ∧
      (mkFFAH total).blocks = [⟨0, total, true⟩] ∧
      (mkRealTimeTask i mem execTime prio).memoryRequired = mem ∧
      (mkRealTimeTask i mem execTime prio).id = i :=
  fun _ _ _ _ _ => ⟨rfl, rfl, rfl, rfl, rfl⟩

/-- C10: the SJF scheduler does not remove tasks — after `processAll` the
vector holds the same tasks (as the sorted permutation of what was added),
each task is serviced exactly once per call in vector order, and a second
`processAll` services every task again; the round-robin queue, by
contrast, is empty after its `processAll` returns (for positive quantum
and sufficient fuel). -/
theorem sjf_retains_tasks_rr_drains :
    (∀ (s : SJFSched) (l' : List RealTimeTask) (a : FFA),
      IsStdSortOutcome s.tasks l' →
      (sjfProcessTasks s l' a).2.2.tasks = l' ∧
      ((sjfProcessTasks s l' a).2.2.tasks).Perm s.tasks ∧
      List.Pairwise (fun x y => x.executionTime ≤ y.executionTime)
        ((sjfProcessTasks s l' a).2.2.tasks) ∧
      ((sjfProcessTasks s l' a).1).map SJEvent.taskId = l'.map (fun t => t.id) ∧
      (∀ (l'' : List RealTimeTask) (a2 : FFA),
        IsStdSortOutcome ((sjfProcessTasks s l' a).2.2.tasks) l'' →
        ((sjfProcessTasks (sjfProcessTasks s l' a).2.2 l'' a2).1).map SJEvent.taskId =
          l''.map (fun t => t.id) ∧ l''.Perm s.tasks)) ∧
    (∀ (quantum : Int) (fuel : Nat) (queue : List RealTimeTask) (a : FFA),
      0 < quantum → rrMeasure queue ≤ fuel →
      (rrRun quantum fuel queue a).2.1 = []) := by
  constructor
  · intro s l' a hout
    refine ⟨rfl, hout.1, hout.2, sjfRun_taskIds l' a, ?_⟩
    intro l'' a2 hout2
    exact ⟨sjfRun_taskIds l'' a2, hout2.1.trans hout.1⟩
  · intro quantum fuel queue a hq hm
    exact rrRun_drains quantum hq fuel queue a hm

/-- Witness for C10: the SJF scheduler state still holds both spec tasks
after a run, and the round-robin queue of the spec scenario is empty after
enough fuel. -/
theorem sjf_retains_tasks_rr_drains_witness :
    ((sjfProcessTasks ⟨[mkRealTimeTask 3 150 500 2, mkRealTimeTask 4 100 200 2]⟩
        [mkRealTimeTask 4 100 200 2, mkRealTimeTask 3 150 500 2]
        (mkFFA 1000)).2.2.tasks =
      [mkRealTimeTask 4 100 200 2, mkRealTimeTask 3 150 500 2]) ∧
    ((rrRun 150 1000 [mkRealTimeTask 1 200 300 1, mkRealTimeTask 2 250 400 1]
        (mkFFA 1000)).2.1 = []) :=
  ⟨(sjf_retains_tasks_rr_drains.1
      ⟨[mkRealTimeTask 3 150 500 2, mkRealTimeTask 4 100 200 2]⟩
      [mkRealTimeTask 4 100 200 2, mkRealTimeTask 3 150 500 2] (mkFFA 1000)
      ⟨List.Perm.swap _ _ _, by decide⟩).1,
   sjf_retains_tasks_rr_drains.2 150 1000
      [mkRealTimeTask 1 200 300 1, mkRealTimeTask 2 250 400 1] (mkFFA 1000)
      (by decide) (by decide)⟩
